import Mathlib

/-!
Verification of the chunking-and-similarity-search core of the
`smartercodes_async_test` backend (files `backend/app/main_standalone.py`
and `backend/app/main.py`).

Shallow embedding conventions:
* Python `str.split()` (whitespace split, empties dropped) is `pyWords`.
* The BERT tokenizer is external; it enters as a parameter
  `tok : String → Nat` giving `len(tokenizer.tokenize(word))` per word.
* The sentence-transformer embedder is external; it enters as a parameter
  `embed : String → List ℚ`.
* numpy cosine similarity is floating-point arithmetic performed by an
  external library; it enters as an abstract score function
  `sim : List ℚ → List ℚ → ℚ`.  The ranking logic itself (build the
  `matches` list, stable descending sort, truncate) is the repository's
  own code and is embedded concretely.
* Python `list.sort(key=..., reverse=True)` is a stable sort placing `a`
  before `b` when `key b ≤ key a`; it is modelled by the stable
  `List.mergeSort` with that comparator.
* The in-memory global `chunks_store` is passed as explicit state.
-/

namespace SmarterCodes

/-! ## Python `str.split()` -/

/-- Auxiliary for `pyWords`: scans characters, accumulating the current
word reversed in `acc`, emitting a word at each whitespace run boundary. -/
def splitWordsAux : List Char → List Char → List String
  | [], acc => if acc = [] then [] else [⟨acc.reverse⟩]
  | c :: cs, acc =>
    if c.isWhitespace then
      if acc = [] then splitWordsAux cs []
      else ⟨acc.reverse⟩ :: splitWordsAux cs []
    else splitWordsAux cs (c :: acc)

/-- Python `text.split()`: split on whitespace runs, dropping empty pieces
(`main_standalone.py` line 74, `main.py` line 98). -/
def pyWords (text : String) : List String :=
  splitWordsAux text.data []

/-- Python `" ".join(words)` (`main_standalone.py` line 86/102). -/
def joinWords : List String → String
  | [] => ""
  | [w] => w
  | w :: x :: ws => w ++ " " ++ joinWords (x :: ws)

/-- Python `l[-n:]` for a nonnegative `n`.  Note the Python quirk
`l[-0:] = l[0:] = l`: a zero count yields the whole list, not the empty
suffix. -/
def pySliceLast (n : Nat) (l : List String) : List String :=
  if n = 0 then l else l.drop (l.length - n)

/-! ## The overlapping chunker (`main_standalone.py`, lines 66-104) -/

/-- Loop state of `chunk_text`: closed chunks (already joined with single
spaces), the candidate word list `current_chunk`, and `token_count`. -/
structure ChunkState where
  chunks : List String
  current : List String
  tcount : Nat
deriving DecidableEq

/-- One iteration of the `for word in words` loop of `chunk_text`
(`main_standalone.py` lines 79-98).  If appending the word would push the
running token count over `max_tokens` and the candidate is non-empty, the
candidate is closed; the next candidate is seeded with its trailing
`overlap_words` words when it has strictly more than `overlap_words`
words (Python slice `current_chunk[-overlap_words:]`), and with the empty
list otherwise; the token count is recomputed over the seed.  Then the
word is appended and its cost added. -/
def chunkStep (tok : String → Nat) (max_tokens overlap_words : Nat)
    (st : ChunkState) (word : String) : ChunkState :=
  let word_token_count := tok word
  let st :=
    if st.tcount + word_token_count > max_tokens ∧ st.current ≠ [] then
      let chunks := st.chunks ++ [joinWords st.current]
      if st.current.length > overlap_words then
        let cur := pySliceLast overlap_words st.current
        ⟨chunks, cur, (cur.map tok).sum⟩
      else
        ⟨chunks, [], 0⟩
    else st
  ⟨st.chunks, st.current ++ [word], st.tcount + word_token_count⟩

/-- `chunk_text(text, max_tokens=500, overlap_words=50)` of
`main_standalone.py` (lines 66-104): fold the loop over the words, then
close the final non-empty candidate. -/
def chunk_text (tok : String → Nat) (text : String)
    (max_tokens : Nat := 500) (overlap_words : Nat := 50) : List String :=
  let words := pyWords text
  let st := words.foldl (chunkStep tok max_tokens overlap_words) ⟨[], [], 0⟩
  if st.current ≠ [] then st.chunks ++ [joinWords st.current] else st.chunks

/-! ## Ghost instrumentation: the same loop keeping chunks as word lists -/

/-- Instrumented loop state: as `ChunkState` but closed chunks are kept as
word lists instead of joined strings. -/
structure ChunkStateW where
  chunks : List (List String)
  current : List String
  tcount : Nat
deriving DecidableEq

/-- The seed the chunker carries into the next candidate when closing a
candidate `prev`: its trailing `overlap_words` words when
`prev.length > overlap_words` (the whole of `prev` when
`overlap_words = 0`, by the Python slice quirk), the empty list
otherwise. -/
def seedOf (overlap_words : Nat) (prev : List String) : List String :=
  if prev.length > overlap_words then pySliceLast overlap_words prev else []

/-- Word-list version of `chunkStep`; proved equivalent below. -/
def chunkStepW (tok : String → Nat) (max_tokens overlap_words : Nat)
    (st : ChunkStateW) (word : String) : ChunkStateW :=
  let word_token_count := tok word
  let st :=
    if st.tcount + word_token_count > max_tokens ∧ st.current ≠ [] then
      ⟨st.chunks ++ [st.current], seedOf overlap_words st.current,
        ((seedOf overlap_words st.current).map tok).sum⟩
    else st
  ⟨st.chunks, st.current ++ [word], st.tcount + word_token_count⟩

/-- Word-list version of `chunk_text`, on an explicit word list. -/
def chunkWordsOf (tok : String → Nat) (max_tokens overlap_words : Nat)
    (words : List String) : List (List String) :=
  let st := words.foldl (chunkStepW tok max_tokens overlap_words) ⟨[], [], 0⟩
  if st.current ≠ [] then st.chunks ++ [st.current] else st.chunks

/-- Word-list version of `chunk_text` on the input text. -/
def chunkWords (tok : String → Nat) (max_tokens overlap_words : Nat)
    (text : String) : List (List String) :=
  chunkWordsOf tok max_tokens overlap_words (pyWords text)

/-! ## Overlap accounting -/

/-- Concatenates the tail chunks, dropping from each chunk the words that
the chunker carried over from the previous chunk (the overlap seed). -/
def dropGo (ow : Nat) (prev : List String) : List (List String) → List String
  | [] => []
  | c :: cs => c.drop (seedOf ow prev).length ++ dropGo ow c cs

/-- The chunk list with each chunk's leading overlap words removed and the
rest concatenated: the first chunk whole, each later chunk minus the seed
carried from its predecessor. -/
def overlapDropped (ow : Nat) : List (List String) → List String
  | [] => []
  | c :: cs => c ++ dropGo ow c cs

/-- The last closed chunk, or `[]` before any chunk has closed. -/
def lastChunk (chunks : List (List String)) : List String :=
  chunks.getLastD []

/-- Closing the final candidate (`main_standalone.py` lines 101-102), at
the word-list level. -/
def closeState (st : ChunkStateW) : List (List String) :=
  if st.current ≠ [] then st.chunks ++ [st.current] else st.chunks

/-- Invariant of the chunker loop, after the words `processed` have been
consumed: the closed chunks with overlaps dropped, followed by the part of
the candidate beyond the seed it inherited, are exactly the processed
words; the candidate still starts with the seed inherited from the last
closed chunk; consecutive closed chunks agree on the carried overlap; all
closed chunks are non-empty; and all words in play are non-empty provided
the input words are. -/
structure ChunkInv (ow : Nat) (processed : List String) (st : ChunkStateW) : Prop where
  content_eq :
    overlapDropped ow st.chunks
      ++ st.current.drop (seedOf ow (lastChunk st.chunks)).length = processed
  seed_le : (seedOf ow (lastChunk st.chunks)).length ≤ st.current.length
  seed_pre :
    st.current.take (seedOf ow (lastChunk st.chunks)).length
      = seedOf ow (lastChunk st.chunks)
  adj : st.chunks.Chain' (fun c c2 => c2.take (seedOf ow c).length = seedOf ow c)
  ne_chunks : ∀ c ∈ st.chunks, c ≠ []
  wne_cur : ∀ w ∈ st.current, w ≠ ""
  wne_chunks : ∀ c ∈ st.chunks, ∀ w ∈ c, w ≠ ""

/-! ## Spec-side variant used to refute claim C3 -/

/-- The seeding rule as claim C3 states it: on closing, the next candidate
is seeded with the trailing `overlap_words` words of the just-closed
chunk, or with all of its words when it has fewer than `overlap_words`
words; both cases are the uniform `current.drop (current.length - ow)`.
This follows the claim text, not the code, and is compared against
`chunkStep` below. -/
def chunkStepClaimedC3 (tok : String → Nat) (max_tokens overlap_words : Nat)
    (st : ChunkState) (word : String) : ChunkState :=
  let word_token_count := tok word
  let st :=
    if st.tcount + word_token_count > max_tokens ∧ st.current ≠ [] then
      let chunks := st.chunks ++ [joinWords st.current]
      let cur := st.current.drop (st.current.length - overlap_words)
      ⟨chunks, cur, (cur.map tok).sum⟩
    else st
  ⟨st.chunks, st.current ++ [word], st.tcount + word_token_count⟩

/-- `chunk_text` as it would behave under claim C3's seeding rule. -/
def chunk_textClaimedC3 (tok : String → Nat) (text : String)
    (max_tokens overlap_words : Nat) : List String :=
  let words := pyWords text
  let st := words.foldl (chunkStepClaimedC3 tok max_tokens overlap_words) ⟨[], [], 0⟩
  if st.current ≠ [] then st.chunks ++ [joinWords st.current] else st.chunks

/-- Claim C4 as stated: for every non-final chunk with at least
`overlap_words` words, its trailing `overlap_words` words equal the
leading `overlap_words` words of the next chunk.  Consecutive chunk pairs
are the elements of `zip` with the tail. -/
def c4Claim (tok : String → Nat) (max_tokens overlap_words : Nat)
    (text : String) : Prop :=
  ∀ p ∈ (chunkWords tok max_tokens overlap_words text).zip
      (chunkWords tok max_tokens overlap_words text).tail,
    overlap_words ≤ p.1.length →
      p.1.drop (p.1.length - overlap_words) = p.2.take overlap_words

/-- Concrete one-token-per-word tokenizer used in witnesses and
counterexamples. -/
def unitTok : String → Nat := fun _ => 1

/-- Concrete two-tokens-per-word tokenizer used in witnesses. -/
def twoTok : String → Nat := fun _ => 2

/-! ## The in-memory store and similarity search
(`main_standalone.py`, lines 36, 107-154) -/

/-- An entry of the in-memory global `chunks_store`
(`main_standalone.py` lines 115-121): content, source url and embedding
vector.  Vector components are modelled as rationals; the embedding model
is external. -/
structure StoredChunk where
  content : String
  url : String
  vector : List ℚ
deriving DecidableEq

/-- The response item `ChunkResult` (`main_standalone.py` lines 16-19):
a scored projection of a stored chunk. -/
structure ChunkResult where
  content : String
  url : String
  score : ℚ
deriving DecidableEq

/-- The `matches` list built by `search_chunks`
(`main_standalone.py` lines 132-148): one scored entry per stored chunk,
in storage order; the cosine-similarity number crunching is the external
numpy call, abstracted as `sim`. -/
def scoredMatches (embed : String → List ℚ) (sim : List ℚ → List ℚ → ℚ)
    (chunks_store : List StoredChunk) (query : String) : List ChunkResult :=
  let query_vec := embed query
  chunks_store.map (fun item => ⟨item.content, item.url, sim query_vec item.vector⟩)

/-- The descending-score comparator of the sort at
`main_standalone.py` line 151: `a` may precede `b` when
`score b ≤ score a`. -/
def scoreLe (a b : ChunkResult) : Bool :=
  decide (b.score ≤ a.score)

/-- Python's stable in-place sort
`matches.sort(key=lambda x: x["score"], reverse=True)`
(`main_standalone.py` line 151): stable, placing `a` before `b` when
`score b ≤ score a`. -/
def sortByScoreDesc (ms : List ChunkResult) : List ChunkResult :=
  ms.mergeSort scoreLe

/-- `search_chunks(query, limit=10)` of `main_standalone.py`
(lines 126-154): empty store short-circuits to `[]`; otherwise score every
stored chunk, sort stably by descending score, return the first `limit`. -/
def search_chunks (embed : String → List ℚ) (sim : List ℚ → List ℚ → ℚ)
    (chunks_store : List StoredChunk) (query : String) (limit : Nat := 10) :
    List ChunkResult :=
  if chunks_store = [] then []
  else
    let ms := scoredMatches embed sim chunks_store query
    let sorted := sortByScoreDesc ms
    sorted.take limit

/-- State-passing rendering of `search_chunks`: the body reads the module
global `chunks_store` and never assigns it (the only sort is of the local
`matches` list); the second component is the global after the call. -/
def search_chunks_run (embed : String → List ℚ) (sim : List ℚ → List ℚ → ℚ)
    (query : String) (limit : Nat) (chunks_store : List StoredChunk) :
    List ChunkResult × List StoredChunk :=
  if chunks_store = [] then ([], chunks_store)
  else
    let ms := scoredMatches embed sim chunks_store query
    let sorted := sortByScoreDesc ms
    (sorted.take limit, chunks_store)

/-- `index_chunks(url, chunks)` of `main_standalone.py` (lines 107-123)
as its effect on the global `chunks_store`: drop every entry with this
url, then append one embedded entry per chunk, in order. -/
def index_chunks (embed : String → List ℚ) (url : String) (chunks : List String)
    (chunks_store : List StoredChunk) : List StoredChunk :=
  let chunks_store := chunks_store.filter (fun item => item.url != url)
  chunks_store ++ chunks.map (fun chunk => ⟨chunk, url, embed chunk⟩)

/-- `index_chunks(url, chunks)` of `main.py` (lines 121-131): every chunk
is embedded and inserted with `batch.add_object`; nothing is deleted.
The external weaviate collection is modelled as a list of stored entries,
insertion appending to it. -/
def index_chunks_main (embed : String → List ℚ) (url : String)
    (chunks : List String) (store : List StoredChunk) : List StoredChunk :=
  store ++ chunks.map (fun chunk => ⟨chunk, url, embed chunk⟩)

/-! ## Equivalence of the two presentations of the loop -/

theorem chunkStep_eq_map (tok : String → Nat) (mt ow : Nat)
    (st : ChunkStateW) (word : String) :
    chunkStep tok mt ow ⟨st.chunks.map joinWords, st.current, st.tcount⟩ word
      = ⟨(chunkStepW tok mt ow st word).chunks.map joinWords,
         (chunkStepW tok mt ow st word).current,
         (chunkStepW tok mt ow st word).tcount⟩ := by
  by_cases hc : st.tcount + tok word > mt ∧ st.current ≠ []
  · by_cases hl : st.current.length > ow
    · simp [chunkStep, chunkStepW, hc, hl, seedOf]
    · simp [chunkStep, chunkStepW, hc, hl, seedOf]
  · simp [chunkStep, chunkStepW, hc]

theorem foldl_chunkStep_eq (tok : String → Nat) (mt ow : Nat) :
    ∀ (ws : List String) (st : ChunkStateW),
      ws.foldl (chunkStep tok mt ow) ⟨st.chunks.map joinWords, st.current, st.tcount⟩
        = ⟨(ws.foldl (chunkStepW tok mt ow) st).chunks.map joinWords,
           (ws.foldl (chunkStepW tok mt ow) st).current,
           (ws.foldl (chunkStepW tok mt ow) st).tcount⟩
  | [], st => rfl
  | w :: ws, st => by
    have h1 := chunkStep_eq_map tok mt ow st w
    have h2 := foldl_chunkStep_eq tok mt ow ws (chunkStepW tok mt ow st w)
    simp only [List.foldl_cons, h1, h2]

/-- The string-level chunker is the word-level chunker followed by
joining each chunk with single spaces. -/
theorem chunk_text_eq_chunkWords (tok : String → Nat) (mt ow : Nat) (text : String) :
    chunk_text tok text mt ow = (chunkWords tok mt ow text).map joinWords := by
  have h := foldl_chunkStep_eq tok mt ow (pyWords text) ⟨[], [], 0⟩
  simp only [List.map_nil] at h
  simp only [chunk_text, chunkWords, chunkWordsOf, h]
  by_cases hcur : ((pyWords text).foldl (chunkStepW tok mt ow) ⟨[], [], 0⟩).current ≠ []
  · simp [hcur]
  · simp [hcur]

/-! ## Overlap accounting lemmas -/

theorem chunkWordsOf_eq_closeState (tok : String → Nat) (mt ow : Nat) (ws : List String) :
    chunkWordsOf tok mt ow ws = closeState (ws.foldl (chunkStepW tok mt ow) ⟨[], [], 0⟩) :=
  rfl

theorem seedOf_nil (ow : Nat) : seedOf ow [] = [] := by
  simp [seedOf]

theorem mem_seedOf {ow : Nat} {prev : List String} {w : String}
    (h : w ∈ seedOf ow prev) : w ∈ prev := by
  unfold seedOf pySliceLast at h
  by_cases h1 : prev.length > ow
  · rw [if_pos h1] at h
    by_cases h2 : ow = 0
    · rwa [if_pos h2] at h
    · rw [if_neg h2] at h
      exact List.mem_of_mem_drop h
  · rw [if_neg h1] at h
    exact absurd h (List.not_mem_nil w)

theorem dropGo_append (ow : Nat) (c : List String) (cs : List (List String))
    (prev : List String) :
    dropGo ow prev (cs ++ [c])
      = dropGo ow prev cs ++ c.drop (seedOf ow (cs.getLastD prev)).length := by
  induction cs generalizing prev with
  | nil => simp [dropGo]
  | cons c2 cs ih =>
    show dropGo ow prev (c2 :: (cs ++ [c])) = _
    simp only [dropGo]
    rw [ih c2, List.getLastD_cons, List.append_assoc]

theorem overlapDropped_append (ow : Nat) (cs : List (List String)) (c : List String) :
    overlapDropped ow (cs ++ [c])
      = overlapDropped ow cs ++ c.drop (seedOf ow (lastChunk cs)).length := by
  cases cs with
  | nil => simp [overlapDropped, dropGo, lastChunk, seedOf_nil]
  | cons c1 cs =>
    simp only [List.cons_append, overlapDropped, dropGo_append ow c cs c1,
      lastChunk, List.getLastD_cons, List.append_assoc]

theorem lastChunk_append (cs : List (List String)) (c : List String) :
    lastChunk (cs ++ [c]) = c :=
  List.getLastD_concat _ _ _

/-! ## The loop invariant -/

theorem chain'_closed (ow : Nat) (chunks : List (List String)) (current : List String)
    (hadj : chunks.Chain' (fun c c2 => c2.take (seedOf ow c).length = seedOf ow c))
    (hpre : current.take (seedOf ow (lastChunk chunks)).length
      = seedOf ow (lastChunk chunks)) :
    (chunks ++ [current]).Chain'
      (fun c c2 => c2.take (seedOf ow c).length = seedOf ow c) := by
  refine hadj.append (List.chain'_singleton _) ?_
  intro x hx y hy
  simp only [List.head?_cons, Option.mem_def, Option.some.injEq] at hy
  have hlx : lastChunk chunks = x := by
    rw [lastChunk, List.getLastD_eq_getLast?, Option.mem_def.mp hx]
    rfl
  subst hy
  rw [← hlx]
  exact hpre

theorem chunkStepW_inv (tok : String → Nat) (mt ow : Nat) {processed : List String}
    {st : ChunkStateW} {word : String} (hw : word ≠ "")
    (h : ChunkInv ow processed st) :
    ChunkInv ow (processed ++ [word]) (chunkStepW tok mt ow st word) := by
  by_cases hc : st.tcount + tok word > mt ∧ st.current ≠ []
  · have hstep : chunkStepW tok mt ow st word
        = ⟨st.chunks ++ [st.current], seedOf ow st.current ++ [word],
           ((seedOf ow st.current).map tok).sum + tok word⟩ := by
      simp [chunkStepW, hc]
    rw [hstep]
    constructor
    · show overlapDropped ow (st.chunks ++ [st.current])
        ++ (seedOf ow st.current ++ [word]).drop
            (seedOf ow (lastChunk (st.chunks ++ [st.current]))).length
        = processed ++ [word]
      rw [lastChunk_append, overlapDropped_append, List.drop_left,
        List.append_assoc, ← List.append_assoc, h.content_eq]
    · show (seedOf ow (lastChunk (st.chunks ++ [st.current]))).length
        ≤ (seedOf ow st.current ++ [word]).length
      rw [lastChunk_append, List.length_append]
      omega
    · show (seedOf ow st.current ++ [word]).take
          (seedOf ow (lastChunk (st.chunks ++ [st.current]))).length
        = seedOf ow (lastChunk (st.chunks ++ [st.current]))
      rw [lastChunk_append]
      exact List.take_left _ _
    · exact chain'_closed ow st.chunks st.current h.adj h.seed_pre
    · intro c hcm
      rcases List.mem_append.mp hcm with h1 | h1
      · exact h.ne_chunks c h1
      · rw [List.mem_singleton.mp h1]
        exact hc.2
    · intro w hwm
      rcases List.mem_append.mp hwm with h1 | h1
      · exact h.wne_cur w (mem_seedOf h1)
      · rw [List.mem_singleton.mp h1]
        exact hw
    · intro c hcm w hwm
      rcases List.mem_append.mp hcm with h1 | h1
      · exact h.wne_chunks c h1 w hwm
      · rw [List.mem_singleton.mp h1] at hwm
        exact h.wne_cur w hwm
  · have hstep : chunkStepW tok mt ow st word
        = ⟨st.chunks, st.current ++ [word], st.tcount + tok word⟩ := by
      simp [chunkStepW, hc]
    rw [hstep]
    constructor
    · show overlapDropped ow st.chunks
        ++ (st.current ++ [word]).drop (seedOf ow (lastChunk st.chunks)).length
        = processed ++ [word]
      rw [List.drop_append_of_le_length h.seed_le, ← List.append_assoc,
        h.content_eq]
    · show (seedOf ow (lastChunk st.chunks)).length ≤ (st.current ++ [word]).length
      rw [List.length_append]
      have := h.seed_le
      omega
    · show (st.current ++ [word]).take (seedOf ow (lastChunk st.chunks)).length
        = seedOf ow (lastChunk st.chunks)
      rw [List.take_append_of_le_length h.seed_le, h.seed_pre]
    · exact h.adj
    · exact h.ne_chunks
    · intro w hwm
      rcases List.mem_append.mp hwm with h1 | h1
      · exact h.wne_cur w h1
      · rw [List.mem_singleton.mp h1]
        exact hw
    · exact h.wne_chunks

theorem foldl_chunkStepW_inv (tok : String → Nat) (mt ow : Nat) :
    ∀ (ws : List String) {processed : List String} {st : ChunkStateW},
      (∀ w ∈ ws, w ≠ "") → ChunkInv ow processed st →
      ChunkInv ow (processed ++ ws) (ws.foldl (chunkStepW tok mt ow) st)
  | [], processed, st, _, h => by simpa using h
  | w :: ws, processed, st, hws, h => by
    have h1 := chunkStepW_inv tok mt ow (hws w (by simp)) h
    have h2 := foldl_chunkStepW_inv tok mt ow ws
      (fun x hx => hws x (by simp [hx])) h1
    simpa [List.append_assoc] using h2

theorem chunkInv_init (ow : Nat) : ChunkInv ow [] ⟨[], [], 0⟩ := by
  refine ⟨?_, ?_, ?_, ?_, ?_, ?_, ?_⟩ <;>
    simp [overlapDropped, lastChunk, seedOf_nil]

/-! ## Non-emptiness of split words -/

theorem mk_ne_empty {l : List Char} (h : l ≠ []) : (⟨l⟩ : String) ≠ "" :=
  fun h2 => h (congrArg String.data h2)

theorem splitWordsAux_ne (cs : List Char) :
    ∀ (acc : List Char), ∀ w ∈ splitWordsAux cs acc, w ≠ "" := by
  induction cs with
  | nil =>
    intro acc w hw
    by_cases h : acc = []
    · simp [splitWordsAux, h] at hw
    · simp only [splitWordsAux, if_neg h, List.mem_singleton] at hw
      subst hw
      exact mk_ne_empty (by simpa using h)
  | cons c cs ih =>
    intro acc w hw
    rw [splitWordsAux] at hw
    by_cases hws : c.isWhitespace = true
    · rw [if_pos hws] at hw
      by_cases h : acc = []
      · rw [if_pos h] at hw
        exact ih [] w hw
      · rw [if_neg h] at hw
        rcases List.mem_cons.mp hw with h1 | h1
        · subst h1
          exact mk_ne_empty (by simpa using h)
        · exact ih [] w h1
    · rw [if_neg hws] at hw
      exact ih (c :: acc) w hw

theorem pyWords_ne (text : String) : ∀ w ∈ pyWords text, w ≠ "" :=
  splitWordsAux_ne text.data []

/-! ## Consequences for the chunker output -/

theorem chunkInv_closeState {ow : Nat} {ws : List String} {st : ChunkStateW}
    (h : ChunkInv ow ws st) :
    overlapDropped ow (closeState st) = ws
    ∧ (closeState st).Chain'
        (fun c c2 => c2.take (seedOf ow c).length = seedOf ow c)
    ∧ (∀ c ∈ closeState st, c ≠ [])
    ∧ (∀ c ∈ closeState st, ∀ w ∈ c, w ≠ "") := by
  by_cases hcur : st.current ≠ []
  · have hcs : closeState st = st.chunks ++ [st.current] := if_pos hcur
    rw [hcs]
    refine ⟨?_, chain'_closed ow st.chunks st.current h.adj h.seed_pre, ?_, ?_⟩
    · rw [overlapDropped_append]
      exact h.content_eq
    · intro c hcm
      rcases List.mem_append.mp hcm with h1 | h1
      · exact h.ne_chunks c h1
      · rw [List.mem_singleton.mp h1]
        exact hcur
    · intro c hcm w hwm
      rcases List.mem_append.mp hcm with h1 | h1
      · exact h.wne_chunks c h1 w hwm
      · rw [List.mem_singleton.mp h1] at hwm
        exact h.wne_cur w hwm
  · have hcs : closeState st = st.chunks := if_neg hcur
    have hc0 : st.current = [] := not_not.mp hcur
    rw [hcs]
    refine ⟨?_, h.adj, h.ne_chunks, h.wne_chunks⟩
    have hce := h.content_eq
    rw [hc0] at hce
    simpa using hce

/-- Master description of the word-level chunker output on any word list
of non-empty words: dropping the carried overlaps recovers the input
words; consecutive chunks share the carried overlap; every chunk is a
non-empty list of non-empty words. -/
theorem chunkWordsOf_spec (tok : String → Nat) (mt ow : Nat) (ws : List String)
    (hws : ∀ w ∈ ws, w ≠ "") :
    overlapDropped ow (chunkWordsOf tok mt ow ws) = ws
    ∧ (chunkWordsOf tok mt ow ws).Chain'
        (fun c c2 => c2.take (seedOf ow c).length = seedOf ow c)
    ∧ (∀ c ∈ chunkWordsOf tok mt ow ws, c ≠ [])
    ∧ (∀ c ∈ chunkWordsOf tok mt ow ws, ∀ w ∈ c, w ≠ "") := by
  rw [chunkWordsOf_eq_closeState]
  exact chunkInv_closeState
    (by simpa using foldl_chunkStepW_inv tok mt ow ws hws (chunkInv_init ow))

/-! ## Further helper lemmas -/

theorem mem_of_mem_dropGo {ow : Nat} {w : String} :
    ∀ {prev : List String} {cs : List (List String)},
      w ∈ dropGo ow prev cs → ∃ c ∈ cs, w ∈ c
  | _, [], h => absurd h (by simp [dropGo])
  | prev, c :: cs, h => by
    simp only [dropGo] at h
    rcases List.mem_append.mp h with h1 | h1
    · exact ⟨c, by simp, List.mem_of_mem_drop h1⟩
    · obtain ⟨c2, hc2, hw2⟩ := mem_of_mem_dropGo h1
      exact ⟨c2, by simp [hc2], hw2⟩

theorem mem_of_mem_overlapDropped {ow : Nat} {w : String} {cs : List (List String)}
    (h : w ∈ overlapDropped ow cs) : ∃ c ∈ cs, w ∈ c := by
  cases cs with
  | nil => simp [overlapDropped] at h
  | cons c cs =>
    simp only [overlapDropped] at h
    rcases List.mem_append.mp h with h1 | h1
    · exact ⟨c, by simp, h1⟩
    · obtain ⟨c2, hc2, hw2⟩ := mem_of_mem_dropGo h1
      exact ⟨c2, by simp [hc2], hw2⟩

theorem chain'_zip_tail {α : Type} {R : α → α → Prop} :
    ∀ {l : List α}, l.Chain' R → ∀ p ∈ l.zip l.tail, R p.1 p.2
  | [], _, p, hp => absurd hp (by simp)
  | [_], _, p, hp => absurd hp (by simp)
  | a :: b :: l, h, p, hp => by
    rw [List.chain'_cons] at h
    simp only [List.tail_cons, List.zip_cons_cons, List.mem_cons] at hp
    rcases hp with h1 | h1
    · subst h1
      exact h.1
    · exact chain'_zip_tail h.2 p h1

theorem joinWords_ne_empty : ∀ {c : List String}, c ≠ [] → (∀ w ∈ c, w ≠ "") →
    joinWords c ≠ ""
  | [], h, _ => absurd rfl h
  | [w], _, hw => by
    show w ≠ ""
    exact hw w (by simp)
  | w :: x :: r, _, _ => by
    intro hcon
    have h2 := congrArg String.length hcon
    rw [show joinWords (w :: x :: r) = w ++ " " ++ joinWords (x :: r) from rfl] at h2
    simp only [String.length_append] at h2
    have e1 : (" " : String).length = 1 := rfl
    have e2 : ("" : String).length = 0 := rfl
    rw [e1, e2] at h2
    omega

/-! ## Claim C2: no word is lost by chunking -/

/-- Claim C2: for every input text, positive `max_tokens` and any
`overlap_words`, the chunks of `chunk_text` are the word-level chunks
joined with single spaces, and concatenating the word-level chunks after
removing each chunk's leading overlap words (the words the chunker
carried over from its predecessor) yields exactly the original
whitespace-split word sequence, in order. -/
theorem chunk_text_no_word_lost (tok : String → Nat) (max_tokens overlap_words : Nat)
    (text : String) (_hmt : 0 < max_tokens) :
    chunk_text tok text max_tokens overlap_words
      = (chunkWords tok max_tokens overlap_words text).map joinWords
    ∧ overlapDropped overlap_words (chunkWords tok max_tokens overlap_words text)
      = pyWords text :=
  ⟨chunk_text_eq_chunkWords tok max_tokens overlap_words text,
   (chunkWordsOf_spec tok max_tokens overlap_words (pyWords text) (pyWords_ne text)).1⟩

/-- Witness for C2 at a concrete input. -/
theorem chunk_text_no_word_lost_witness :
    0 < 2
    ∧ (chunk_text unitTok "a b c" 2 1 = (chunkWords unitTok 2 1 "a b c").map joinWords
       ∧ overlapDropped 1 (chunkWords unitTok 2 1 "a b c") = pyWords "a b c") :=
  ⟨by decide, chunk_text_no_word_lost unitTok 2 1 "a b c" (by decide)⟩

/-! ## Claim C3: the seeding rule on closing a chunk -/

/-- Counterexample to claim C3 as stated: with one token per word,
`max_tokens = 1` and `overlap_words = 2`, the chunk `"a"` closes with
fewer than `overlap_words` words; the code seeds the next candidate with
nothing (output `["a", "b"]`), while the claimed rule would seed it with
all of the closed chunk's words (output `["a", "a b"]`). -/
theorem chunk_seed_counterexample :
    chunk_text unitTok "a b" 1 2 = ["a", "b"]
    ∧ chunk_textClaimedC3 unitTok "a b" 1 2 = ["a", "a b"]
    ∧ chunk_text unitTok "a b" 1 2 ≠ chunk_textClaimedC3 unitTok "a b" 1 2 := by
  decide

/-- Amended claim C3: when appending the next word would push the running
token count over `max_tokens` and the candidate is non-empty, the
candidate is closed (joined with single spaces and appended to the
output) and the next candidate is seeded with the trailing
`overlap_words` words of the just-closed chunk when that chunk has
strictly more than `overlap_words` words (for `overlap_words = 0` the
Python slice yields the entire chunk); otherwise the seed is empty.  The
running token count is recomputed from scratch over the seed, and the
incoming word is then appended. -/
theorem chunk_seed_amended (tok : String → Nat) (max_tokens overlap_words : Nat)
    (st : ChunkState) (word : String)
    (hover : st.tcount + tok word > max_tokens) (hne : st.current ≠ []) :
    chunkStep tok max_tokens overlap_words st word
      = ⟨st.chunks ++ [joinWords st.current],
         (if overlap_words < st.current.length then
            (if overlap_words = 0 then st.current
             else st.current.drop (st.current.length - overlap_words))
          else []) ++ [word],
         ((if overlap_words < st.current.length then
            (if overlap_words = 0 then st.current
             else st.current.drop (st.current.length - overlap_words))
          else []).map tok).sum + tok word⟩ := by
  have hc : st.tcount + tok word > max_tokens ∧ st.current ≠ [] := ⟨hover, hne⟩
  by_cases hl : st.current.length > overlap_words
  · simp [chunkStep, hc, hl, pySliceLast]
  · simp [chunkStep, hc, hl]

/-- Witness for the amended C3 at a concrete input: closing `["a"]` with
`overlap_words = 1` seeds the next candidate with nothing. -/
theorem chunk_seed_amended_witness :
    ((⟨[], ["a"], 1⟩ : ChunkState).tcount + unitTok "b" > 1)
    ∧ ((⟨[], ["a"], 1⟩ : ChunkState).current ≠ [])
    ∧ chunkStep unitTok 1 1 ⟨[], ["a"], 1⟩ "b" = ⟨["a"], ["b"], 1⟩ :=
  ⟨by decide, by decide,
   chunk_seed_amended unitTok 1 1 ⟨[], ["a"], 1⟩ "b" (by decide) (by decide)⟩

/-! ## Claim C4: trailing overlap equals the next chunk's leading words -/

/-- Counterexample to claim C4 as stated: with one token per word,
`max_tokens = 1` and `overlap_words = 1`, every chunk closes with exactly
`overlap_words` words and no overlap is carried, so the trailing word of
a non-final chunk differs from the next chunk's leading word. -/
theorem chunk_overlap_counterexample :
    chunkWords unitTok 1 1 "a b c" = [["a"], ["b"], ["c"]]
    ∧ ¬ c4Claim unitTok 1 1 "a b c" := by
  refine ⟨by decide, ?_⟩
  unfold c4Claim
  decide

/-- Amended claim C4: for consecutive chunks of one `chunk_text` run, when
the earlier chunk has strictly more than `overlap_words` words, its
trailing `overlap_words` words equal the leading `overlap_words` words of
the following chunk. -/
theorem chunk_overlap_amended (tok : String → Nat) (max_tokens overlap_words : Nat)
    (text : String) (p : List String × List String)
    (hp : p ∈ (chunkWords tok max_tokens overlap_words text).zip
        (chunkWords tok max_tokens overlap_words text).tail)
    (hlen : overlap_words < p.1.length) :
    p.1.drop (p.1.length - overlap_words) = p.2.take overlap_words := by
  have hchain :=
    (chunkWordsOf_spec tok max_tokens overlap_words (pyWords text) (pyWords_ne text)).2.1
  have hR := chain'_zip_tail hchain p hp
  by_cases h0 : overlap_words = 0
  · subst h0
    simp
  · have hseed : seedOf overlap_words p.1
        = p.1.drop (p.1.length - overlap_words) := by
      rw [seedOf, if_pos hlen, pySliceLast, if_neg h0]
    have hlen2 : (seedOf overlap_words p.1).length = overlap_words := by
      rw [hseed, List.length_drop]
      omega
    rw [hlen2, hseed] at hR
    exact hR.symm

/-- Witness for the amended C4 at a concrete input. -/
theorem chunk_overlap_amended_witness :
    ((["a", "b"], ["b", "c"]) ∈ (chunkWords unitTok 2 1 "a b c d").zip
        (chunkWords unitTok 2 1 "a b c d").tail)
    ∧ 1 < (["a", "b"] : List String).length
    ∧ (["a", "b"] : List String).drop 1 = (["b", "c"] : List String).take 1 :=
  ⟨by decide, by decide,
   chunk_overlap_amended unitTok 2 1 "a b c d" (["a", "b"], ["b", "c"])
     (by decide) (by decide)⟩

/-! ## Claim C6: empty outputs -/

/-- Counterexample to claim C6 as stated: `max_tokens = 0` does not yield
an empty chunk sequence on non-empty input; each word still lands in a
chunk. -/
theorem chunk_text_zero_budget_counterexample :
    chunk_text unitTok "a b" 0 50 = ["a", "b"]
    ∧ chunk_text unitTok "a b" 0 50 ≠ [] := by
  decide

/-- Amended claim C6: when the input text splits into zero words (it is
empty or all whitespace), `chunk_text` returns the empty chunk
sequence, whatever `max_tokens` and `overlap_words` are. -/
theorem chunk_text_empty_input (tok : String → Nat) (max_tokens overlap_words : Nat)
    (text : String) (h : pyWords text = []) :
    chunk_text tok text max_tokens overlap_words = [] := by
  simp [chunk_text, h]

/-- Witness for the amended C6 at a concrete all-whitespace input. -/
theorem chunk_text_empty_input_witness :
    pyWords " " = [] ∧ chunk_text unitTok " " 500 50 = [] :=
  ⟨by decide, chunk_text_empty_input unitTok 500 50 " " (by decide)⟩

/-! ## Claim C7: oversized words are still placed -/

/-- Claim C7: with a positive `max_tokens`, a word of the input whose own
token cost exceeds `max_tokens` still ends up inside some chunk of the
output (the chunker is total by construction, so it terminates on such
input); `max_tokens` is only a soft cap. -/
theorem chunk_text_big_word_kept (tok : String → Nat) (max_tokens overlap_words : Nat)
    (text : String) (w : String) (_hmt : 0 < max_tokens)
    (hw : w ∈ pyWords text) (_hbig : max_tokens < tok w) :
    ∃ c ∈ chunkWords tok max_tokens overlap_words text,
      w ∈ c ∧ joinWords c ∈ chunk_text tok text max_tokens overlap_words := by
  have hrec :=
    (chunkWordsOf_spec tok max_tokens overlap_words (pyWords text) (pyWords_ne text)).1
  have hw2 : w ∈ overlapDropped overlap_words
      (chunkWords tok max_tokens overlap_words text) := by
    show w ∈ overlapDropped overlap_words
      (chunkWordsOf tok max_tokens overlap_words (pyWords text))
    rw [hrec]
    exact hw
  obtain ⟨c, hc, hwc⟩ := mem_of_mem_overlapDropped hw2
  refine ⟨c, hc, hwc, ?_⟩
  rw [chunk_text_eq_chunkWords]
  exact List.mem_map_of_mem joinWords hc

/-- Witness for C7 at a concrete input: a two-token word with
`max_tokens = 1`. -/
theorem chunk_text_big_word_kept_witness :
    0 < 1 ∧ "a" ∈ pyWords "a" ∧ 1 < twoTok "a"
    ∧ ∃ c ∈ chunkWords twoTok 1 50 "a",
        "a" ∈ c ∧ joinWords c ∈ chunk_text twoTok "a" 1 50 :=
  ⟨by decide, by decide, by decide,
   chunk_text_big_word_kept twoTok 1 50 "a" "a" (by decide) (by decide) (by decide)⟩

/-! ## Claim C10: no chunk is the empty string -/

/-- Claim C10: every chunk emitted by `chunk_text` is a non-empty string:
chunks are only closed from a non-empty candidate whose words are
themselves non-empty. -/
theorem chunk_text_chunks_nonempty (tok : String → Nat)
    (max_tokens overlap_words : Nat) (text : String) (chunk : String)
    (hc : chunk ∈ chunk_text tok text max_tokens overlap_words) : chunk ≠ "" := by
  rw [chunk_text_eq_chunkWords] at hc
  obtain ⟨cw, hcw, rfl⟩ := List.mem_map.mp hc
  have hspec :=
    chunkWordsOf_spec tok max_tokens overlap_words (pyWords text) (pyWords_ne text)
  exact joinWords_ne_empty (hspec.2.2.1 cw hcw) (hspec.2.2.2 cw hcw)

/-- Witness for C10 at a concrete input. -/
theorem chunk_text_chunks_nonempty_witness :
    "a b" ∈ chunk_text unitTok "a b c" 2 1 ∧ "a b" ≠ "" :=
  ⟨by decide, chunk_text_chunks_nonempty unitTok 2 1 "a b c" "a b" (by decide)⟩

/-! ## Stability of the descending sort -/

theorem scoreLe_trans (a b c : ChunkResult) (h1 : scoreLe a b) (h2 : scoreLe b c) :
    scoreLe a c := by
  simp only [scoreLe, decide_eq_true_eq] at h1 h2 ⊢
  exact h2.trans h1

theorem scoreLe_total (a b : ChunkResult) : scoreLe a b || scoreLe b a := by
  simp only [scoreLe]
  rcases le_total b.score a.score with h | h
  · simp [h]
  · simp [h]

/-- A stable sort does not reorder elements the comparator cannot
distinguish: filtering the sorted list by a predicate on which the
comparator is constantly true gives the same list as filtering the
input. -/
theorem mergeSort_filter_eq_of_ties {α : Type} (le : α → α → Bool) (l : List α)
    (p : α → Bool)
    (htrans : ∀ a b c : α, le a b → le b c → le a c)
    (htotal : ∀ a b : α, le a b || le b a)
    (hties : ∀ a b : α, p a → p b → le a b) :
    (l.mergeSort le).filter p = l.filter p := by
  have hpw : (l.filter p).Pairwise (fun a b => le a b = true) :=
    List.pairwise_of_forall_mem_list (fun a ha b hb =>
      hties a b (List.mem_filter.mp ha).2 (List.mem_filter.mp hb).2)
  have hsub1 : List.Sublist (l.filter p) (l.mergeSort le) :=
    List.sublist_mergeSort htrans htotal hpw (List.filter_sublist l)
  have h4 : (l.filter p).filter p = l.filter p := by
    rw [List.filter_filter]
    simp [Bool.and_self]
  have hsub2 : List.Sublist (l.filter p) ((l.mergeSort le).filter p) := by
    have h3 := hsub1.filter p
    rwa [h4] at h3
  have hlen : ((l.mergeSort le).filter p).length = (l.filter p).length :=
    ((List.mergeSort_perm l le).filter p).length_eq
  exact (hsub2.eq_of_length hlen.symm).symm

/-! ## Claim C1: ranking order, stability and truncation -/

/-- Claim C1: for every query, every score function and every store,
`search_chunks` returns results sorted by non-increasing score, at most
`min limit (store size)` of them; entries of equal score keep their
original storage order (the equal-score part of the result is a prefix of
the equal-score entries of the `matches` list, which is in storage
order); every result is one of the scored entries; and `limit` defaults
to `10`. -/
theorem search_chunks_ranking (embed : String → List ℚ) (sim : List ℚ → List ℚ → ℚ)
    (chunks_store : List StoredChunk) (query : String) (limit : Nat) :
    (search_chunks embed sim chunks_store query limit).Pairwise
        (fun a b => b.score ≤ a.score)
    ∧ (search_chunks embed sim chunks_store query limit).length
        ≤ min limit chunks_store.length
    ∧ (∀ s : ℚ,
        (search_chunks embed sim chunks_store query limit).filter
            (fun m => m.score == s)
          <+: (scoredMatches embed sim chunks_store query).filter
            (fun m => m.score == s))
    ∧ search_chunks embed sim chunks_store query limit
        ⊆ scoredMatches embed sim chunks_store query
    ∧ search_chunks embed sim chunks_store query
        = search_chunks embed sim chunks_store query 10 := by
  by_cases hs : chunks_store = []
  · subst hs
    refine ⟨?_, ?_, ?_, ?_, rfl⟩ <;> simp [search_chunks, scoredMatches]
  · have hsearch : search_chunks embed sim chunks_store query limit
        = (sortByScoreDesc (scoredMatches embed sim chunks_store query)).take limit := by
      simp [search_chunks, hs]
    refine ⟨?_, ?_, ?_, ?_, rfl⟩
    · rw [hsearch]
      have hsorted :
          (sortByScoreDesc (scoredMatches embed sim chunks_store query)).Pairwise
            (fun a b => scoreLe a b = true) :=
        List.sorted_mergeSort scoreLe_trans scoreLe_total _
      have hsorted2 :
          (sortByScoreDesc (scoredMatches embed sim chunks_store query)).Pairwise
            (fun a b => b.score ≤ a.score) :=
        hsorted.imp (fun h => by simpa [scoreLe, decide_eq_true_eq] using h)
      exact List.Pairwise.sublist (List.take_sublist _ _) hsorted2
    · rw [hsearch]
      simp [sortByScoreDesc, scoredMatches, List.length_take]
    · intro s
      rw [hsearch]
      have hstab : (sortByScoreDesc (scoredMatches embed sim chunks_store query)).filter
            (fun m => m.score == s)
          = (scoredMatches embed sim chunks_store query).filter
            (fun m => m.score == s) := by
        apply mergeSort_filter_eq_of_ties scoreLe _ _ scoreLe_trans scoreLe_total
        intro a b ha hb
        simp only [beq_iff_eq] at ha hb
        simp [scoreLe, ha, hb]
      rw [← hstab]
      have hpre := List.take_prefix limit
        (sortByScoreDesc (scoredMatches embed sim chunks_store query))
      exact hpre.filter _
    · rw [hsearch]
      intro r hr
      have hr2 := List.take_subset _ _ hr
      simpa [sortByScoreDesc, List.mem_mergeSort] using hr2

/-! ## Claim C9: searching does not change the store -/

/-- Claim C9: the state-passing rendering of `search_chunks` returns the
global `chunks_store` unchanged, and its value component is exactly
`search_chunks` on that store. -/
theorem search_chunks_preserves_store (embed : String → List ℚ)
    (sim : List ℚ → List ℚ → ℚ) (query : String) (limit : Nat)
    (chunks_store : List StoredChunk) :
    (search_chunks_run embed sim query limit chunks_store).2 = chunks_store
    ∧ (search_chunks_run embed sim query limit chunks_store).1
      = search_chunks embed sim chunks_store query limit := by
  by_cases hs : chunks_store = [] <;>
    simp [search_chunks_run, search_chunks, hs]

/-! ## Claim C5: replace semantics of indexing -/

/-- Claim C5, settled against both implementations.  The standalone
`index_chunks` has replace semantics: afterwards the entries for `url`
are exactly the freshly embedded chunks, in order, and entries for every
other url are untouched.  The `main.py` variant does not: at a concrete
store already holding an entry for the url, the prior entry is still
present after re-indexing (nothing is ever deleted). -/
theorem index_chunks_replace_vs_append :
    (∀ (embed : String → List ℚ) (url : String) (chunks : List String)
        (chunks_store : List StoredChunk),
      (index_chunks embed url chunks chunks_store).filter
          (fun item => item.url == url)
        = chunks.map (fun chunk => ⟨chunk, url, embed chunk⟩)
      ∧ (index_chunks embed url chunks chunks_store).filter
          (fun item => item.url != url)
        = chunks_store.filter (fun item => item.url != url))
    ∧ (⟨"old", "u", []⟩ : StoredChunk)
        ∈ index_chunks_main (fun _ => []) "u" ["new"] [⟨"old", "u", []⟩] := by
  constructor
  · intro embed url chunks store
    have hidx : index_chunks embed url chunks store
        = store.filter (fun item => item.url != url)
          ++ chunks.map (fun chunk => (⟨chunk, url, embed chunk⟩ : StoredChunk)) :=
      rfl
    constructor
    · rw [hidx, List.filter_append]
      have h1 : (store.filter (fun item => item.url != url)).filter
          (fun item => item.url == url) = [] := by
        rw [List.filter_filter]
        apply List.filter_eq_nil_iff.mpr
        intro a _
        cases h : a.url == url <;> simp [bne, h]
      have h2 : (chunks.map (fun chunk => (⟨chunk, url, embed chunk⟩ : StoredChunk))).filter
            (fun item => item.url == url)
          = chunks.map (fun chunk => ⟨chunk, url, embed chunk⟩) := by
        apply List.filter_eq_self.mpr
        intro a ha
        obtain ⟨c, _, rfl⟩ := List.mem_map.mp ha
        simp
      rw [h1, h2, List.nil_append]
    · rw [hidx, List.filter_append]
      have h1 : (store.filter (fun item => item.url != url)).filter
            (fun item => item.url != url)
          = store.filter (fun item => item.url != url) := by
        rw [List.filter_filter]
        simp [Bool.and_self]
      have h2 : (chunks.map (fun chunk => (⟨chunk, url, embed chunk⟩ : StoredChunk))).filter
            (fun item => item.url != url) = [] := by
        apply List.filter_eq_nil_iff.mpr
        intro a ha
        obtain ⟨c, _, rfl⟩ := List.mem_map.mp ha
        simp
      rw [h1, h2, List.append_nil]
  · simp [index_chunks_main]

end SmarterCodes
